import Mathlib

/-!
Verification of the arena allocator, growable vector and chained hashmap of
`core.h` (forthcc).  The C code is shallowly embedded: pointers become
abstract natural-number addresses handed out by a monotone counter, memory
blocks carry their contents as `List Nat` (one cell per byte; the vector
macro is instantiated at `sizeof(item) = 1`), and functions whose C
originals can abort through `assert` are embedded as `Option`-returning
functions (`none` models the abort).
-/

namespace Core

/-! ### Arena (`core.h`, ARENA section)

`core_Allocation`: one record of the arena's singly linked list.  `mem` is
the block address (`void * mem`), `len` the capacity in bytes, `active`
the reuse flag, and `data` the block contents (`List Nat`, one entry per
byte; fresh `malloc` memory is modelled as zero-filled, no claim depends
on the fresh values).  The `next` pointer of the C struct is the list
structure itself: the head of the `recs` list is `a->head`. -/
structure Allocation where
  mem : Nat
  len : Nat
  active : Bool
  data : List Nat
  deriving DecidableEq, Repr

instance : Inhabited Allocation := ⟨⟨0, 0, false, []⟩⟩

/-- `core_Arena`: the record list (head first) plus the model's fresh
address counter (standing for the addresses `malloc` would return; every
fresh block gets a previously unused address). -/
structure Arena where
  recs : List Allocation
  nextAddr : Nat
  deriving DecidableEq, Repr

instance : Inhabited Arena := ⟨⟨[], 0⟩⟩

/-- `core_arena_allocation_new(bytes)`: a fresh active record of exactly
`bytes` bytes (contents uninitialized, modelled as zeros). -/
def core_arena_allocation_new (addr bytes : Nat) : Allocation :=
  { mem := addr, len := bytes, active := true, data := List.replicate bytes 0 }

/-- The scan loop of `core_arena_alloc`:
`for(;ptr->next != NULL; ptr = ptr->next) { if(!ptr->active && ptr->len >= bytes) ... }`.
The loop body runs only while `ptr->next != NULL`, so the last record of
the list is never examined.  Returns `some (recs', mem)` when a record was
reused (flag flipped, everything else unchanged), `none` when the scan
fell through to the tail. -/
def allocLoop : List Allocation → Nat → Option (List Allocation × Nat)
  | [], _ => none
  | [_], _ => none
  | r :: rs, bytes =>
      if !r.active && bytes ≤ r.len then
        some ({ r with active := true } :: rs, r.mem)
      else
        (allocLoop rs bytes).map (fun pr => (r :: pr.1, pr.2))

/-- `core_arena_alloc(a, bytes)`: empty list creates the head; otherwise
scan (see `allocLoop`), and on fall-through append a fresh record of
exactly `bytes` bytes at the tail. -/
def core_arena_alloc (a : Arena) (bytes : Nat) : Arena × Nat :=
  match a.recs with
  | [] => (⟨[core_arena_allocation_new a.nextAddr bytes], a.nextAddr + 1⟩, a.nextAddr)
  | r :: rs =>
    match allocLoop (r :: rs) bytes with
    | some (recs', p) => (⟨recs', a.nextAddr⟩, p)
    | none => (⟨(r :: rs) ++ [core_arena_allocation_new a.nextAddr bytes], a.nextAddr + 1⟩,
               a.nextAddr)

/-- Index of the first record whose block address is `ptr` (the
`for(node = a->head; node != NULL && node->mem != ptr; ...)` search). -/
def findRecIdx (recs : List Allocation) (ptr : Nat) : Option Nat :=
  recs.findIdx? (fun r => r.mem = ptr)

/-- `core_arena_reclaim_memory(a, ptr)`: mark the record owning `ptr`
inactive; `none` models the `assert(node != NULL)` abort when `ptr` is
unknown. -/
def core_arena_reclaim_memory (a : Arena) (ptr : Nat) : Option Arena :=
  match findRecIdx a.recs ptr with
  | none => none
  | some i =>
      some ⟨a.recs.set i { a.recs.getD i default with active := false }, a.nextAddr⟩

/-- `core_arena_realloc(a, ptr, bytes)`: find the record owning `ptr`
(`none` = `assert(node != NULL)` abort), require `bytes >= node->len`
(`none` = `assert(bytes >= node->len)` abort), mark it inactive, create a
brand-new record of `bytes` bytes whose first `node->len` bytes are copied
from the old block (`memcpy`), prepend it at the head, return its block. -/
def core_arena_realloc (a : Arena) (ptr : Nat) (bytes : Nat) : Option (Arena × Nat) :=
  match findRecIdx a.recs ptr with
  | none => none
  | some i =>
      let node := a.recs.getD i default
      if bytes < node.len then none
      else
        let fresh : Allocation :=
          { mem := a.nextAddr, len := bytes, active := true,
            data := node.data.take node.len ++ List.replicate (bytes - node.len) 0 }
        some (⟨fresh :: a.recs.set i { node with active := false }, a.nextAddr + 1⟩,
              a.nextAddr)

/-- Writing one cell through a block pointer (`(vec)->items[i] = item`
seen from the arena side): update byte `off` of the first record whose
address is `ptr`. -/
def arenaStore (a : Arena) (ptr off v : Nat) : Arena :=
  match findRecIdx a.recs ptr with
  | none => a
  | some i =>
      let node := a.recs.getD i default
      ⟨a.recs.set i { node with data := node.data.set off v }, a.nextAddr⟩

/-- Reading the first `n` cells of the block at `ptr`. -/
def readBlock (a : Arena) (ptr n : Nat) : List Nat :=
  match a.recs.find? (fun r => r.mem = ptr) with
  | some r => r.data.take n
  | none => []

/-! ### Vector (`core_Vec` / `core_vec_append`)

The macro is instantiated at `sizeof(item) = 1` (a byte vector), so cell
counts and byte counts coincide. -/

structure Vec where
  items : Nat
  len : Nat
  cap : Nat
  deriving DecidableEq, Repr

/-- `core_vec_append(vec, arena, item)` at `sizeof(item) = 1`:
cap 0 → allocate 8 cells and reset `len` to 0; else if `len + 1 >= cap` →
grow to `cap*2 + 1` via `core_arena_realloc` (whose asserts can abort:
`none`); finally store `item` at index `len` and increment `len`. -/
def core_vec_append (v : Vec) (a : Arena) (item : Nat) : Option (Vec × Arena) :=
  if v.cap = 0 then
    let pr := core_arena_alloc a (1 * 8)
    some (⟨pr.2, 0 + 1, 8⟩, arenaStore pr.1 pr.2 0 item)
  else if v.len + 1 ≥ v.cap then
    let newCap := v.cap * 2 + 1
    match core_arena_realloc a v.items (1 * newCap) with
    | none => none
    | some (a', p) => some (⟨p, v.len + 1, newCap⟩, arenaStore a' p v.len item)
  else
    some (⟨v.items, v.len + 1, v.cap⟩, arenaStore a v.items v.len item)

/-- Repeated `core_vec_append`, aborting (`none`) as soon as one append
aborts. -/
def vecAppendAll (v : Vec) (a : Arena) : List Nat → Option (Vec × Arena)
  | [] => some (v, a)
  | x :: xs =>
    match core_vec_append v a x with
    | none => none
    | some (v', a') => vecAppendAll v' a' xs

/-! ### First-fit over the non-tail records (amended C1 specification)

`firstFitIdx recs bytes` follows the spec's words as amended: the index of
the first record, scanned from the head but excluding the final record of
the list, that is inactive with capacity at least `bytes`.  Compared with
`core_arena_alloc` to settle C1/C9. -/
def firstFitIdx : List Allocation → Nat → Option Nat
  | [], _ => none
  | [_], _ => none
  | r :: rs, bytes =>
      if !r.active && bytes ≤ r.len then some 0
      else (firstFitIdx rs bytes).map (· + 1)

/-- Invariant tying a vector to its backing arena when the vector is the
arena's sole user and `xs` are the items appended so far: either nothing
was appended yet (both zero-initialized), or the arena's head record is
the vector's live backing block and its first `len` cells are `xs`. -/
def VecInv (xs : List Nat) (v : Vec) (a : Arena) : Prop :=
  (xs = [] ∧ v = ⟨0, 0, 0⟩ ∧ a = ⟨[], 0⟩) ∨
  (v.len = xs.length ∧ v.len < v.cap ∧
   ∃ hd rest, a.recs = hd :: rest ∧ hd.mem = v.items ∧ hd.active = true ∧
     hd.len = v.cap ∧ hd.data.length = v.cap ∧ hd.data.take v.len = xs)

/-! ### Hash (`core_hash`) and hashmap (`HASHMAP V2` section)

C string keys are byte lists (the bytes before the terminating NUL);
`strcmp`-equality is list equality.  `unsigned long` arithmetic wraps
modulo `2^64`. -/

abbrev Key := List Nat

def ulongSize : Nat := 2 ^ 64

/-- `core_hash(key, modulus)`: djb2-style `hash = hash * 33 + c` over the
bytes, seeded with 5381, wrapped modulo `2^64`, reduced modulo `modulus`.
The C function asserts `modulus > 0`; `core_hash_chk` models that assert. -/
def core_hash (key : Key) (modulus : Nat) : Nat :=
  (key.foldl (fun h c => (((h <<< 5) % ulongSize + h) % ulongSize + c) % ulongSize) 5381)
    % modulus

/-- `core_hash` with its `assert(modulus > 0)`: `none` models the abort. -/
def core_hash_chk (key : Key) (modulus : Nat) : Option Nat :=
  if modulus = 0 then none else some (core_hash key modulus)

/-- `core_HashmapBuckets`, a `core_Vec(core_HashmapNode*)`.  A bucket's
chain of `core_HashmapNode`s is a head-first list of the node `index`
fields (`NULL` = `[]`); `cap` is the vector capacity field, which the code
consults only through the `buckets->cap == 0` test. -/
structure Buckets where
  chains : List (List Nat)
  cap : Nat
  deriving DecidableEq, Repr

/-- `core_vec_append(buckets, arena, NULL)`: capacity 0 resets the length
to 0 and allocates capacity 8; within one slot of full grows to
`cap*2 + 1`; then appends an empty chain.  (The node storage comes from
the arena; its addresses do not affect the chain contents.) -/
def bucketsAppendNull (b : Buckets) : Buckets :=
  if b.cap = 0 then ⟨[[]], 8⟩
  else if b.chains.length + 1 ≥ b.cap then ⟨b.chains ++ [[]], b.cap * 2 + 1⟩
  else ⟨b.chains ++ [[]], b.cap⟩

/-- `for(i = 0; i < n; ++i) core_vec_append(buckets, arena, NULL);` -/
def appendNulls (b : Buckets) (n : Nat) : Buckets :=
  (List.range n).foldl (fun acc _ => bucketsAppendNull acc) b

/-- The `while(node)` walk of `core_hashmap_get_index`: first index in the
chain whose stored key equals `key`.  (The C code asserts
`node->index < keys->len`; an out-of-range index is modelled by the `getD`
default and is unreachable under the map invariant.) -/
def findInChain : List Nat → List Key → Key → Option Nat
  | [], _, _ => none
  | idx :: rest, keys, key =>
      if keys.getD idx [] = key then some idx else findInChain rest keys key

/-- `core_hashmap_get_index`: not-found when the bucket table is empty,
otherwise walk the chain at `hash(key, buckets->len)`.  `some i` models
`*result = i; return CORE_TRUE`, `none` models `return CORE_FALSE`. -/
def core_hashmap_get_index (b : Buckets) (keys : List Key) (key : Key) : Option Nat :=
  if b.chains.length = 0 then none
  else findInChain (b.chains.getD (core_hash key b.chains.length) []) keys key

/-- `core_hashmap_needs_resize(num_keys, num_buckets)`:
`num_keys >= num_buckets * 3`. -/
def core_hashmap_needs_resize (num_keys num_buckets : Nat) : Bool :=
  num_buckets * 3 ≤ num_keys

/-- The chain insertion at the end of `core_hashmap_record_new_key`:
prepend a node carrying `index` at bucket `hash(key, buckets->len)`. -/
def insertIdx (b : Buckets) (key : Key) (index : Nat) : Buckets :=
  let i := core_hash key b.chains.length
  { b with chains := b.chains.set i (index :: b.chains.getD i []) }

/-- `core_hashmap_rehash`: build a fresh table of `keys->len * 4` buckets
and re-insert every existing key at its existing index, in index order.
The C code re-inserts through `core_hashmap_record_new_key`; on the fresh
table that call always takes the plain-insert branch (its `cap == 0` and
`needs_resize` guards are false there — `record_new_key_plain` below makes
this precise), so the re-insertion is embedded as `insertIdx` directly.
Freeing the old nodes and table is an arena-level effect with no bearing
on the chain contents; the old table argument is therefore unused. -/
def core_hashmap_rehash (_b : Buckets) (keys : List Key) : Buckets :=
  (List.range keys.length).foldl (fun acc i => insertIdx acc (keys.getD i []) i)
    (appendNulls ⟨[], 0⟩ (keys.length * 4))

/-- `core_hashmap_record_new_key`: materialize 16 buckets when the table
was never allocated (`cap == 0`), else rehash when
`needs_resize(index, buckets->len)`; then prepend the new node. -/
def core_hashmap_record_new_key (b : Buckets) (keys : List Key) (key : Key) (index : Nat) :
    Buckets :=
  let b1 :=
    if b.cap = 0 then appendNulls b 16
    else if core_hashmap_needs_resize index b.chains.length then core_hashmap_rehash b keys
    else b
  insertIdx b1 key index

/-- `core_Hashmap(V)`: parallel values/keys vectors plus the bucket table.
The scratch `index` field of the C struct only communicates the found
index from `get` to `set`; the model passes it directly as the result of
`core_hashmap_get_index`. -/
structure HM (V : Type) where
  values : List V
  keys : List Key
  buckets : Buckets
  deriving DecidableEq, Repr

/-- `core_hashmap_get(self, key)`: the value at the found index, or
not-found (`NULL`). -/
def core_hashmap_get {V : Type} (h : HM V) (key : Key) : Option V :=
  match core_hashmap_get_index h.buckets h.keys key with
  | none => none
  | some i => h.values.get? i

/-- `core_hashmap_set(self, arena, key, value)`: overwrite in place when
the key is present; otherwise record the new key at index `keys.len`,
append the value and append the arena-owned copy of the key (the copy is
string-equal to `key`, so it is modelled by `key` itself). -/
def core_hashmap_set {V : Type} (h : HM V) (key : Key) (v : V) : HM V :=
  match core_hashmap_get_index h.buckets h.keys key with
  | some i => { h with values := h.values.set i v }
  | none =>
      { values := h.values ++ [v],
        keys := h.keys ++ [key],
        buckets := core_hashmap_record_new_key h.buckets h.keys key h.keys.length }

/-- A zero-initialized `core_Hashmap(V)` (`= {0}`). -/
def emptyHM (V : Type) : HM V := ⟨[], [], ⟨[], 0⟩⟩

/-- Inserting a list of key/value pairs one `core_hashmap_set` at a time. -/
def core_hashmap_setAll {V : Type} (h : HM V) (ps : List (Key × V)) : HM V :=
  ps.foldl (fun acc p => core_hashmap_set acc p.1 p.2) h

/-- Maps reachable from the zero-initialized map by the public operations.
`core_hashmap_get` only writes the scratch slot (which the model keeps
implicit), so only `core_hashmap_set` steps change the state. -/
inductive Reachable {V : Type} : HM V → Prop
  | empty : Reachable (emptyHM V)
  | set (h : HM V) (key : Key) (v : V) : Reachable h → Reachable (core_hashmap_set h key v)

/-- Well-formedness of the bucket chains with respect to the key vector:
every node index is in range and lives in the bucket its key hashes to,
and every key index is present in the bucket its key hashes to. -/
def ChainsOK (keys : List Key) (chains : List (List Nat)) : Prop :=
  (∀ j < chains.length, ∀ idx ∈ chains.getD j [], idx < keys.length ∧
      core_hash (keys.getD idx []) chains.length = j) ∧
  (∀ i < keys.length, i ∈ chains.getD (core_hash (keys.getD i []) chains.length) [])

/-- The hashmap invariant maintained by the public operations. -/
def HMInv {V : Type} (h : HM V) : Prop :=
  h.values.length = h.keys.length ∧
  h.keys.Nodup ∧
  (h.buckets.cap = 0 → h.buckets.chains = [] ∧ h.keys = []) ∧
  (h.buckets.cap ≠ 0 → 0 < h.buckets.chains.length) ∧
  ChainsOK h.keys h.buckets.chains

instance (keys : List Key) (chains : List (List Nat)) : Decidable (ChainsOK keys chains) := by
  unfold ChainsOK; infer_instance

instance {V : Type} (h : HM V) : Decidable (HMInv h) := by
  unfold HMInv; infer_instance

/-! ### Assert-aware ("checked") hashmap operations

The same control flow with the `assert(modulus > 0)` of `core_hash` made
explicit: `none` models the abort.  Used to settle that the assertion is
unreachable through the public operations (C10). -/

def core_hashmap_get_index_chk (b : Buckets) (keys : List Key) (key : Key) :
    Option (Option Nat) :=
  if b.chains.length = 0 then some none
  else (core_hash_chk key b.chains.length).map
    (fun i => findInChain (b.chains.getD i []) keys key)

def insertIdx_chk (b : Buckets) (key : Key) (index : Nat) : Option Buckets :=
  (core_hash_chk key b.chains.length).map
    (fun i => { b with chains := b.chains.set i (index :: b.chains.getD i []) })

def core_hashmap_rehash_chk (_b : Buckets) (keys : List Key) : Option Buckets :=
  (List.range keys.length).foldl
    (fun acc i => acc.bind (fun t => insertIdx_chk t (keys.getD i []) i))
    (some (appendNulls ⟨[], 0⟩ (keys.length * 4)))

def core_hashmap_record_new_key_chk (b : Buckets) (keys : List Key) (key : Key) (index : Nat) :
    Option Buckets :=
  (if b.cap = 0 then some (appendNulls b 16)
   else if core_hashmap_needs_resize index b.chains.length then core_hashmap_rehash_chk b keys
   else some b).bind (fun b1 => insertIdx_chk b1 key index)

def core_hashmap_set_chk {V : Type} (h : HM V) (key : Key) (v : V) : Option (HM V) :=
  match core_hashmap_get_index_chk h.buckets h.keys key with
  | none => none
  | some (some i) => some { h with values := h.values.set i v }
  | some none =>
      (core_hashmap_record_new_key_chk h.buckets h.keys key h.keys.length).map
        (fun b => { values := h.values ++ [v], keys := h.keys ++ [key], buckets := b })

/-! ## Theorems -/

/-! ### List helpers -/

theorem getD_set_self {α : Type} (l : List α) (i : Nat) (x d : α) (h : i < l.length) :
    (l.set i x).getD i d = x := by
  simp [List.getD_eq_getElem?_getD, List.getElem?_set_self h]

theorem getD_set_ne {α : Type} (l : List α) (i j : Nat) (x d : α) (h : i ≠ j) :
    (l.set i x).getD j d = l.getD j d := by
  simp [List.getD_eq_getElem?_getD, List.getElem?_set_ne h]

/-! ### Arena: characterization of `core_arena_alloc` -/

theorem firstFitIdx_lt : ∀ {recs : List Allocation} {bytes i : Nat},
    firstFitIdx recs bytes = some i → i < recs.length := by
  intro recs
  induction recs with
  | nil => intro bytes i h; simp [firstFitIdx] at h
  | cons r rs ih =>
    intro bytes i h
    cases rs with
    | nil => simp [firstFitIdx] at h
    | cons r2 rs2 =>
      simp only [firstFitIdx] at h
      split at h
      · cases h; exact Nat.succ_pos _
      · obtain ⟨j, hj, rfl⟩ := Option.map_eq_some'.mp h
        simpa using Nat.succ_lt_succ (ih hj)

theorem firstFitIdx_fits : ∀ {recs : List Allocation} {bytes i : Nat},
    firstFitIdx recs bytes = some i →
      (recs.getD i default).active = false ∧ bytes ≤ (recs.getD i default).len := by
  intro recs
  induction recs with
  | nil => intro bytes i h; simp [firstFitIdx] at h
  | cons r rs ih =>
    intro bytes i h
    cases rs with
    | nil => simp [firstFitIdx] at h
    | cons r2 rs2 =>
      simp only [firstFitIdx] at h
      split at h
      · cases h
        rename_i hcond
        simp only [Bool.and_eq_true, Bool.not_eq_true', decide_eq_true_eq] at hcond
        simpa [List.getD_cons_zero] using hcond
      · obtain ⟨j, hj, rfl⟩ := Option.map_eq_some'.mp h
        simpa [List.getD_cons_succ] using ih hj

theorem allocLoop_eq_firstFit : ∀ (recs : List Allocation) (bytes : Nat),
    allocLoop recs bytes =
      (firstFitIdx recs bytes).map
        (fun i => (recs.set i { recs.getD i default with active := true },
                   (recs.getD i default).mem)) := by
  intro recs
  induction recs with
  | nil => intro bytes; rfl
  | cons r rs ih =>
    intro bytes
    cases rs with
    | nil => rfl
    | cons r2 rs2 =>
      simp only [allocLoop, firstFitIdx]
      split
      · rfl
      · rw [ih]
        cases hf : firstFitIdx (r2 :: rs2) bytes with
        | none => rfl
        | some j => simp [List.getD_cons_succ, List.set]

/-- How `core_arena_alloc` actually behaves: reuse happens exactly at
`firstFitIdx` (first fit over the non-tail records), flipping only that
record's `active` flag; otherwise a fresh record of exactly `bytes` bytes
is appended at the tail. -/
theorem arena_alloc_spec (a : Arena) (bytes : Nat) :
    match firstFitIdx a.recs bytes with
    | some i =>
        core_arena_alloc a bytes =
          (⟨a.recs.set i { a.recs.getD i default with active := true }, a.nextAddr⟩,
           (a.recs.getD i default).mem)
    | none =>
        core_arena_alloc a bytes =
          (⟨a.recs ++ [core_arena_allocation_new a.nextAddr bytes], a.nextAddr + 1⟩,
           a.nextAddr) := by
  obtain ⟨recs, nx⟩ := a
  cases recs with
  | nil => simp [core_arena_alloc, firstFitIdx]
  | cons r rs =>
    have h := allocLoop_eq_firstFit (r :: rs) bytes
    cases hf : firstFitIdx (r :: rs) bytes with
    | none => simp only [hf, Option.map_none'] at h; simp [core_arena_alloc, h]
    | some i => simp only [hf, Option.map_some'] at h; simp [core_arena_alloc, h]

/-- C1, counterexample: an arena whose single record is inactive with
capacity 5 ≥ 3.  The claim says `core_arena_alloc` returns that record's
block (address 0), marking it active; the code never examines the last
record of the list, so it instead appends a fresh record and returns its
block (address 1), leaving record 0 inactive. -/
theorem C1_cex_tail_record_not_reused :
    ((⟨[⟨0, 5, false, [0, 0, 0, 0, 0]⟩], 1⟩ : Arena).recs.getD 0 default).active = false ∧
    3 ≤ ((⟨[⟨0, 5, false, [0, 0, 0, 0, 0]⟩], 1⟩ : Arena).recs.getD 0 default).len ∧
    (core_arena_alloc ⟨[⟨0, 5, false, [0, 0, 0, 0, 0]⟩], 1⟩ 3).2 ≠
      ((⟨[⟨0, 5, false, [0, 0, 0, 0, 0]⟩], 1⟩ : Arena).recs.getD 0 default).mem ∧
    ((core_arena_alloc ⟨[⟨0, 5, false, [0, 0, 0, 0, 0]⟩], 1⟩ 3).1.recs.getD 0 default).active
      = false ∧
    (core_arena_alloc ⟨[⟨0, 5, false, [0, 0, 0, 0, 0]⟩], 1⟩ 3).1.recs.length = 2 := by
  decide

/-- C1, amended: `core_arena_alloc` returns the block of the first record
in the arena's list, scanned from the head but *excluding the final
record*, that is inactive and has capacity ≥ size, marking that record
active; if no such non-tail record qualifies (in particular when the only
qualifying record is the tail, or the list is empty), it appends a new
record of exactly `size` bytes at the tail of the list and returns that
record's block. -/
theorem C1_arena_alloc_first_fit_skips_tail (a : Arena) (bytes : Nat) :
    match firstFitIdx a.recs bytes with
    | some i =>
        core_arena_alloc a bytes =
          (⟨a.recs.set i { a.recs.getD i default with active := true }, a.nextAddr⟩,
           (a.recs.getD i default).mem)
    | none =>
        core_arena_alloc a bytes =
          (⟨a.recs ++ [core_arena_allocation_new a.nextAddr bytes], a.nextAddr + 1⟩,
           a.nextAddr) :=
  arena_alloc_spec a bytes

/-- C9: when `core_arena_alloc` satisfies a request by reusing an
inactive record (`firstFitIdx` found one), the only state change is that
record's `active` flag: its address, capacity and contents, every other
record, and the address counter are unchanged, and the request fit within
the record's capacity — which, as the final conjunct exhibits, may be
strictly larger than the requested size. -/
theorem C9_arena_alloc_reuse_frame (a : Arena) (bytes i : Nat)
    (hfit : firstFitIdx a.recs bytes = some i) :
    ((core_arena_alloc a bytes).2 = (a.recs.getD i default).mem ∧
     (core_arena_alloc a bytes).1.nextAddr = a.nextAddr ∧
     (core_arena_alloc a bytes).1.recs.length = a.recs.length ∧
     ((core_arena_alloc a bytes).1.recs.getD i default).mem = (a.recs.getD i default).mem ∧
     ((core_arena_alloc a bytes).1.recs.getD i default).len = (a.recs.getD i default).len ∧
     ((core_arena_alloc a bytes).1.recs.getD i default).data = (a.recs.getD i default).data ∧
     ((core_arena_alloc a bytes).1.recs.getD i default).active = true ∧
     (∀ j, j ≠ i → (core_arena_alloc a bytes).1.recs.getD j default = a.recs.getD j default) ∧
     bytes ≤ (a.recs.getD i default).len) ∧
    ∃ (a' : Arena) (b' i' : Nat), firstFitIdx a'.recs b' = some i' ∧
      b' < (a'.recs.getD i' default).len := by
  have hspec := arena_alloc_spec a bytes
  rw [hfit] at hspec
  have hlt : i < a.recs.length := firstFitIdx_lt hfit
  have hset := getD_set_self a.recs i
    { a.recs.getD i default with active := true } default hlt
  constructor
  · refine ⟨?_, ?_, ?_, ?_, ?_, ?_, ?_, ?_, (firstFitIdx_fits hfit).2⟩
    · rw [hspec]
    · rw [hspec]
    · rw [hspec]; exact List.length_set a.recs i _
    · rw [hspec]; rw [hset]
    · rw [hspec]; rw [hset]
    · rw [hspec]; rw [hset]
    · rw [hspec]; rw [hset]
    · intro j hj
      rw [hspec]
      exact getD_set_ne a.recs i j _ default (fun he => hj he.symm)
  · exact ⟨⟨[⟨0, 5, false, [9, 9, 9, 9, 9]⟩, ⟨1, 1, true, [0]⟩], 2⟩, 3, 0,
      by decide, by decide⟩

/-- C9 witness: reusing the inactive 5-byte record at the head for a
3-byte request returns its block (address 0) without consuming a fresh
address. -/
theorem C9_witness :
    (core_arena_alloc ⟨[⟨0, 5, false, [9, 9, 9, 9, 9]⟩, ⟨1, 1, true, [0]⟩], 2⟩ 3).2 = 0 ∧
    (core_arena_alloc ⟨[⟨0, 5, false, [9, 9, 9, 9, 9]⟩, ⟨1, 1, true, [0]⟩], 2⟩ 3).1.nextAddr
      = 2 := by
  have h := C9_arena_alloc_reuse_frame
    ⟨[⟨0, 5, false, [9, 9, 9, 9, 9]⟩, ⟨1, 1, true, [0]⟩], 2⟩ 3 0 (by decide)
  exact ⟨h.1.1, h.1.2.1⟩

/-- C6: reallocating a handle owned by record `i` to `bytes ≥` its
capacity marks that record inactive, prepends a brand-new active record
of capacity `bytes` at the head whose first `min(oldCapacity, newSize)`
bytes are the old block's content unchanged, and returns the new block. -/
theorem C6_arena_realloc_grows_and_preserves (a : Arena) (ptr bytes i : Nat)
    (hfind : findRecIdx a.recs ptr = some i)
    (hge : (a.recs.getD i default).len ≤ bytes)
    (hdata : (a.recs.getD i default).data.length = (a.recs.getD i default).len) :
    core_arena_realloc a ptr bytes =
      some (⟨{ mem := a.nextAddr, len := bytes, active := true,
               data := (a.recs.getD i default).data ++
                 List.replicate (bytes - (a.recs.getD i default).len) 0 } ::
             a.recs.set i { a.recs.getD i default with active := false },
             a.nextAddr + 1⟩, a.nextAddr) ∧
    ((a.recs.getD i default).data ++
        List.replicate (bytes - (a.recs.getD i default).len) 0).take
      (min (a.recs.getD i default).len bytes) = (a.recs.getD i default).data := by
  have hnode : ¬ bytes < (a.recs.getD i default).len := by omega
  have htake : List.take (a.recs.getD i default).len (a.recs.getD i default).data =
      (a.recs.getD i default).data := by
    rw [← hdata]; exact List.take_length _
  constructor
  · simp only [core_arena_realloc, hfind, if_neg hnode, htake]
  · rw [Nat.min_eq_left hge, List.take_append_of_le_length (by rw [hdata]), ← hdata,
      List.take_length]

/-- C6 witness: growing the 2-byte block `[9, 7]` to 3 bytes yields a new
head record `[9, 7, 0]` at the fresh address and deactivates the old
record. -/
theorem C6_witness :
    core_arena_realloc ⟨[⟨5, 2, true, [9, 7]⟩], 6⟩ 5 3 =
      some (⟨[⟨6, 3, true, [9, 7, 0]⟩, ⟨5, 2, false, [9, 7]⟩], 7⟩, 6) := by
  have h := (C6_arena_realloc_grows_and_preserves ⟨[⟨5, 2, true, [9, 7]⟩], 6⟩ 5 3 0
    (by decide) (by decide) (by decide)).1
  simpa using h

/-- C2 (code bug): with `malloc` always succeeding, a reachable arena
state still makes `core_vec_append` abort.  Allocate 20 bytes then 1 byte,
reclaim the 20-byte block; a fresh byte vector's first append first-fits
into the reclaimed 20-byte record, seven appends succeed, and the eighth
append grows the vector to capacity 17 and calls
`core_arena_realloc(arena, items, 17)`, whose `assert(bytes >= node->len)`
fails because `17 < 20`. -/
theorem C2_vec_append_aborts_without_malloc_failure :
    core_arena_reclaim_memory (core_arena_alloc (core_arena_alloc ⟨[], 0⟩ 20).1 1).1 0 =
      some ⟨[⟨0, 20, false, List.replicate 20 0⟩, ⟨1, 1, true, [0]⟩], 2⟩ ∧
    (vecAppendAll ⟨0, 0, 0⟩ ⟨[⟨0, 20, false, List.replicate 20 0⟩, ⟨1, 1, true, [0]⟩], 2⟩
        [1, 2, 3, 4, 5, 6, 7]).isSome = true ∧
    vecAppendAll ⟨0, 0, 0⟩ ⟨[⟨0, 20, false, List.replicate 20 0⟩, ⟨1, 1, true, [0]⟩], 2⟩
        [1, 2, 3, 4, 5, 6, 7, 8] = none := by
  refine ⟨by decide, by decide, by decide⟩

/-! ### Vector: append preserves contents and order (C7) -/

theorem take_set_concat {α : Type} : ∀ (l : List α) (n : Nat) (x : α), n < l.length →
    (l.set n x).take (n + 1) = l.take n ++ [x] := by
  intro l
  induction l with
  | nil => intro n x hn; simp at hn
  | cons a as ih =>
    intro n x hn
    cases n with
    | zero => simp
    | succ m =>
      have := ih m x (by simpa using hn)
      simp [List.set, this]

theorem findRecIdx_cons_self (hd : Allocation) (rest : List Allocation) (ptr : Nat)
    (h : hd.mem = ptr) : findRecIdx (hd :: rest) ptr = some 0 := by
  simp [findRecIdx, List.findIdx?_cons, h]

theorem vec_append_inv (xs : List Nat) (v : Vec) (a : Arena) (x : Nat)
    (h : VecInv xs v a) :
    ∃ v' a', core_vec_append v a x = some (v', a') ∧ VecInv (xs ++ [x]) v' a' := by
  rcases h with ⟨hxs, hv, ha⟩ | ⟨hlen, hcap, hd, rest, hrecs, hmem, hact, hhdlen, hdata, htake⟩
  · subst hxs; subst hv; subst ha
    refine ⟨⟨0, 1, 8⟩, ⟨[⟨0, 8, true, [x, 0, 0, 0, 0, 0, 0, 0]⟩], 1⟩, rfl, Or.inr ?_⟩
    exact ⟨rfl, by decide, ⟨0, 8, true, [x, 0, 0, 0, 0, 0, 0, 0]⟩, [], rfl, rfl, rfl, rfl,
      rfl, rfl⟩
  · have hcapne : v.cap ≠ 0 := by omega
    by_cases hgrow : v.len + 1 ≥ v.cap
    · -- growth path through core_arena_realloc
      have hfind : findRecIdx a.recs v.items = some 0 := by
        rw [hrecs]; exact findRecIdx_cons_self hd rest v.items hmem
      have hnode : a.recs.getD 0 default = hd := by rw [hrecs]; rfl
      have hnotlt : ¬ 1 * (v.cap * 2 + 1) < (a.recs.getD 0 default).len := by
        rw [hnode, hhdlen]; omega
      have htakelen : List.take (a.recs.getD 0 default).len (a.recs.getD 0 default).data =
          hd.data := by
        rw [hnode, hhdlen, ← hdata]; exact List.take_length _
      have hre : core_arena_realloc a v.items (1 * (v.cap * 2 + 1)) =
          some (⟨{ mem := a.nextAddr, len := 1 * (v.cap * 2 + 1), active := true,
                   data := hd.data ++
                     List.replicate (1 * (v.cap * 2 + 1) - (a.recs.getD 0 default).len) 0 } ::
                 a.recs.set 0 { a.recs.getD 0 default with active := false },
                 a.nextAddr + 1⟩, a.nextAddr) := by
        simp only [core_arena_realloc, hfind, if_neg hnotlt, htakelen]
      have hsetlen : v.len < hd.data.length := by omega
      have hstore :
          arenaStore
            ⟨{ mem := a.nextAddr, len := 1 * (v.cap * 2 + 1), active := true,
               data := hd.data ++
                 List.replicate (1 * (v.cap * 2 + 1) - (a.recs.getD 0 default).len) 0 } ::
             a.recs.set 0 { a.recs.getD 0 default with active := false },
             a.nextAddr + 1⟩ a.nextAddr v.len x =
          ⟨{ mem := a.nextAddr, len := 1 * (v.cap * 2 + 1), active := true,
             data := (hd.data ++
               List.replicate (1 * (v.cap * 2 + 1) - (a.recs.getD 0 default).len) 0).set
                 v.len x } ::
           a.recs.set 0 { a.recs.getD 0 default with active := false },
           a.nextAddr + 1⟩ := by
        simp [arenaStore, findRecIdx, List.findIdx?_cons]
      refine ⟨⟨a.nextAddr, v.len + 1, v.cap * 2 + 1⟩,
        ⟨{ mem := a.nextAddr, len := 1 * (v.cap * 2 + 1), active := true,
           data := (hd.data ++
             List.replicate (1 * (v.cap * 2 + 1) - (a.recs.getD 0 default).len) 0).set
               v.len x } ::
         a.recs.set 0 { a.recs.getD 0 default with active := false },
         a.nextAddr + 1⟩, ?_, Or.inr ?_⟩
      · simp only [core_vec_append, if_neg hcapne, if_pos hgrow, hre]
        rw [hstore]
      · refine ⟨by simpa using hlen ▸ rfl, by show v.len + 1 < v.cap * 2 + 1; omega, _, _,
          rfl, rfl, rfl, by simp, ?_, ?_⟩
        · simp only [List.length_set, List.length_append, List.length_replicate, hnode,
            hhdlen, hdata]
          omega
        · rw [List.set_append]
          rw [if_pos hsetlen]
          rw [List.take_append_of_le_length (by simpa [hdata] using hcap),
            take_set_concat hd.data v.len x hsetlen, htake]
    · -- in-place store
      have hfind : findRecIdx a.recs v.items = some 0 := by
        rw [hrecs]; exact findRecIdx_cons_self hd rest v.items hmem
      have hnode : a.recs.getD 0 default = hd := by rw [hrecs]; rfl
      have hstore : arenaStore a v.items v.len x =
          ⟨a.recs.set 0 { hd with data := hd.data.set v.len x }, a.nextAddr⟩ := by
        simp only [arenaStore, hfind, hnode]
      refine ⟨⟨v.items, v.len + 1, v.cap⟩,
        ⟨a.recs.set 0 { hd with data := hd.data.set v.len x }, a.nextAddr⟩, ?_, Or.inr ?_⟩
      · simp only [core_vec_append, if_neg hcapne, if_neg hgrow]
        rw [hstore]
      · have hsetlen : v.len < hd.data.length := by omega
        refine ⟨by simpa using hlen ▸ rfl, by show v.len + 1 < v.cap; omega,
          { hd with data := hd.data.set v.len x }, rest, ?_, hmem, hact, hhdlen, ?_, ?_⟩
        · show a.recs.set 0 _ = _
          rw [hrecs]; rfl
        · simpa using hdata
        · rw [take_set_concat hd.data v.len x hsetlen, htake]

theorem vecAppendAll_inv : ∀ (xs ys : List Nat) (v : Vec) (a : Arena),
    VecInv ys v a →
    ∃ v' a', vecAppendAll v a xs = some (v', a') ∧ VecInv (ys ++ xs) v' a' := by
  intro xs
  induction xs with
  | nil => intro ys v a h; exact ⟨v, a, rfl, by simpa using h⟩
  | cons x xs ih =>
    intro ys v a h
    obtain ⟨v1, a1, he, hinv⟩ := vec_append_inv ys v a x h
    obtain ⟨v', a', he', hinv'⟩ := ih (ys ++ [x]) v1 a1 hinv
    refine ⟨v', a', ?_, by simpa using hinv'⟩
    simp only [vecAppendAll, he]
    exact he'

/-- C7: appending any sequence of items to a zero-initialized vector
backed by a fresh arena never aborts; after the appends `len` equals the
number of items appended and the first `len` cells of the backing block
are exactly the appended items in order (growth through
`core_arena_realloc` neither reorders nor loses elements).  Every prefix
of `xs` is itself such a sequence, so the statement holds after each
call. -/
theorem C7_vec_append_len_and_order (xs : List Nat) :
    ∃ v a, vecAppendAll ⟨0, 0, 0⟩ ⟨[], 0⟩ xs = some (v, a) ∧
      v.len = xs.length ∧ readBlock a v.items v.len = xs := by
  obtain ⟨v, a, he, hinv⟩ :=
    vecAppendAll_inv xs [] ⟨0, 0, 0⟩ ⟨[], 0⟩ (Or.inl ⟨rfl, rfl, rfl⟩)
  rw [List.nil_append] at hinv
  refine ⟨v, a, he, ?_, ?_⟩
  · rcases hinv with ⟨hxs, hv, _⟩ | ⟨hlen, _⟩
    · simp [hxs, hv]
    · exact hlen
  · rcases hinv with ⟨hxs, hv, ha⟩ | ⟨hlen, _, hd, rest, hrecs, hmem, _, _, _, htake⟩
    · rw [hxs, hv, ha]; rfl
    · rw [readBlock, hrecs]
      rw [List.find?_cons_of_pos _ (by simp [hmem])]
      simpa using htake

/-! ### Hashmap: basic helpers -/

theorem core_hash_lt (key : Key) (m : Nat) (hm : 0 < m) : core_hash key m < m :=
  Nat.mod_lt _ hm

theorem getD_replicate_nil (n j : Nat) :
    (List.replicate n ([] : List Nat)).getD j [] = [] := by
  rcases Nat.lt_or_ge j n with hj | hj
  · simp [List.getD_eq_getElem?_getD, List.getElem?_replicate, hj]
  · simp [List.getD_eq_getElem?_getD, List.getElem?_replicate, Nat.not_lt.mpr hj]

theorem nodup_getD_inj (keys : List Key) (hnd : keys.Nodup) {i j : Nat}
    (hi : i < keys.length) (hj : j < keys.length)
    (he : keys.getD i [] = keys.getD j []) : i = j := by
  rw [List.getD_eq_getElem keys [] hi, List.getD_eq_getElem keys [] hj] at he
  exact (List.Nodup.getElem_inj_iff hnd).mp he

theorem getD_mem_of_lt (keys : List Key) {i : Nat} (hi : i < keys.length) :
    keys.getD i [] ∈ keys := by
  rw [List.getD_eq_getElem keys [] hi]
  exact List.getElem_mem hi

theorem bucketsAppendNull_of_cap_zero (b : Buckets) (h : b.cap = 0) :
    bucketsAppendNull b = ⟨[[]], 8⟩ := by
  simp [bucketsAppendNull, h]

theorem bucketsAppendNull_of_cap_ne (b : Buckets) (h : b.cap ≠ 0) :
    (bucketsAppendNull b).chains = b.chains ++ [[]] ∧ (bucketsAppendNull b).cap ≠ 0 := by
  rw [bucketsAppendNull, if_neg h]
  split <;> simp [h]

theorem appendNulls_succ (b : Buckets) (n : Nat) :
    appendNulls b (n + 1) = bucketsAppendNull (appendNulls b n) := by
  simp [appendNulls, List.range_succ]

theorem appendNulls_from_zero (b : Buckets) (hb : b.cap = 0) :
    ∀ n, 1 ≤ n →
      (appendNulls b n).chains = List.replicate n [] ∧ (appendNulls b n).cap ≠ 0 := by
  intro n
  induction n with
  | zero => intro h0; exact absurd h0 (by omega)
  | succ m ih =>
    intro _
    rcases Nat.eq_zero_or_pos m with hm | hm
    · subst hm
      rw [appendNulls_succ]
      have : appendNulls b 0 = b := rfl
      rw [this, bucketsAppendNull_of_cap_zero b hb]
      exact ⟨rfl, by decide⟩
    · obtain ⟨hchains, hcap⟩ := ih hm
      rw [appendNulls_succ]
      obtain ⟨h1, h2⟩ := bucketsAppendNull_of_cap_ne _ hcap
      refine ⟨?_, h2⟩
      rw [h1, hchains, List.replicate_succ']

theorem insertIdx_chains_length (b : Buckets) (key : Key) (idx : Nat) :
    (insertIdx b key idx).chains.length = b.chains.length :=
  List.length_set _ _ _

theorem insertIdx_cap (b : Buckets) (key : Key) (idx : Nat) :
    (insertIdx b key idx).cap = b.cap := rfl

/-- On a table with nonzero capacity that does not need resizing,
`core_hashmap_record_new_key` is exactly the plain chain insertion — this
is the situation of every re-insertion performed inside
`core_hashmap_rehash`. -/
theorem record_new_key_plain (b : Buckets) (keys : List Key) (key : Key) (index : Nat)
    (hcap : b.cap ≠ 0) (hnr : core_hashmap_needs_resize index b.chains.length = false) :
    core_hashmap_record_new_key b keys key index = insertIdx b key index := by
  simp [core_hashmap_record_new_key, hcap, hnr]

/-! ### Hashmap: `findInChain` -/

theorem findInChain_none_iff : ∀ (c : List Nat) (keys : List Key) (key : Key),
    findInChain c keys key = none ↔ ∀ idx ∈ c, keys.getD idx [] ≠ key := by
  intro c keys key
  induction c with
  | nil => simp [findInChain]
  | cons idx rest ih =>
    rw [findInChain]
    split
    · simp_all
    · simp_all

theorem findInChain_some : ∀ (c : List Nat) (keys : List Key) (key : Key) (i : Nat),
    findInChain c keys key = some i → i ∈ c ∧ keys.getD i [] = key := by
  intro c keys key
  induction c with
  | nil => intro i h; simp [findInChain] at h
  | cons idx rest ih =>
    intro i h
    rw [findInChain] at h
    split at h
    · cases h; exact ⟨List.mem_cons_self _ _, by assumption⟩
    · obtain ⟨h1, h2⟩ := ih i h
      exact ⟨List.mem_cons_of_mem _ h1, h2⟩

theorem findInChain_unique : ∀ (c : List Nat) (keys : List Key) (key : Key) (i : Nat),
    i ∈ c → keys.getD i [] = key →
    (∀ idx ∈ c, keys.getD idx [] = key → idx = i) →
    findInChain c keys key = some i := by
  intro c keys key
  induction c with
  | nil => intro i h; simp at h
  | cons idx rest ih =>
    intro i hmem heq huniq
    rw [findInChain]
    rcases List.mem_cons.mp hmem with rfl | hrest
    · rw [if_pos heq]
    · split
      · rename_i hpos
        rw [huniq idx (List.mem_cons_self _ _) hpos]
      · exact ih i hrest heq (fun j hj => huniq j (List.mem_cons_of_mem _ hj))

/-! ### Hashmap: `core_hashmap_get_index` under the chain invariant -/

theorem get_index_at (b : Buckets) (keys : List Key) (i : Nat)
    (hok : ChainsOK keys b.chains) (hnd : keys.Nodup)
    (hlen : 0 < b.chains.length) (hi : i < keys.length) :
    core_hashmap_get_index b keys (keys.getD i []) = some i := by
  rw [core_hashmap_get_index, if_neg (by omega)]
  have hmem := hok.2 i hi
  refine findInChain_unique _ keys _ i hmem rfl ?_
  intro idx hidx heq
  have hj := core_hash_lt (keys.getD i []) b.chains.length hlen
  have hvalid := (hok.1 _ hj idx hidx).1
  exact nodup_getD_inj keys hnd hvalid hi heq

theorem get_index_not_mem (b : Buckets) (keys : List Key) (key : Key)
    (hok : ChainsOK keys b.chains) (hkey : key ∉ keys) :
    core_hashmap_get_index b keys key = none := by
  rw [core_hashmap_get_index]
  split
  · rfl
  · rename_i hne
    have hlen : 0 < b.chains.length := Nat.pos_of_ne_zero hne
    rw [findInChain_none_iff]
    intro idx hidx heq
    have hj := core_hash_lt key b.chains.length hlen
    have hvalid := (hok.1 _ hj idx hidx).1
    exact hkey (heq ▸ getD_mem_of_lt keys hvalid)

theorem get_index_valid (b : Buckets) (keys : List Key) (key : Key) (i : Nat)
    (hok : ChainsOK keys b.chains)
    (hsome : core_hashmap_get_index b keys key = some i) :
    i < keys.length ∧ keys.getD i [] = key := by
  rw [core_hashmap_get_index] at hsome
  split at hsome
  · cases hsome
  · rename_i hne
    have hlen : 0 < b.chains.length := Nat.pos_of_ne_zero hne
    obtain ⟨hmem, heq⟩ := findInChain_some _ keys key i hsome
    have hj := core_hash_lt key b.chains.length hlen
    exact ⟨(hok.1 _ hj i hmem).1, heq⟩

theorem get_index_some_of_mem (b : Buckets) (keys : List Key) (key : Key)
    (hok : ChainsOK keys b.chains) (hlen : 0 < b.chains.length)
    (hkey : key ∈ keys) :
    ∃ i, core_hashmap_get_index b keys key = some i := by
  obtain ⟨i, hi, hget⟩ := List.mem_iff_getElem.mp hkey
  rw [core_hashmap_get_index, if_neg (by omega)]
  have heq : keys.getD i [] = key := by rw [List.getD_eq_getElem keys [] hi, hget]
  have hmem := heq ▸ hok.2 i hi
  rcases hch : findInChain (b.chains.getD (core_hash key b.chains.length) []) keys key with
    _ | j
  · rw [findInChain_none_iff] at hch
    exact absurd heq (hch i hmem)
  · exact ⟨j, rfl⟩

/-! ### Hashmap: the rehash fold builds well-formed chains -/

theorem insert_fold_inv (keys : List Key) (t0 : Buckets) (m : Nat) (hm : 0 < m)
    (hlen0 : t0.chains.length = m)
    (hempty : ∀ j, t0.chains.getD j [] = []) :
    ∀ n, n ≤ keys.length →
      (((List.range n).foldl (fun acc i => insertIdx acc (keys.getD i []) i) t0).chains.length
          = m) ∧
      (((List.range n).foldl (fun acc i => insertIdx acc (keys.getD i []) i) t0).cap
          = t0.cap) ∧
      (∀ j < m,
        ∀ idx ∈ ((List.range n).foldl (fun acc i => insertIdx acc (keys.getD i []) i)
            t0).chains.getD j [],
          idx < n ∧ core_hash (keys.getD idx []) m = j) ∧
      (∀ i < n,
        i ∈ ((List.range n).foldl (fun acc i => insertIdx acc (keys.getD i []) i)
            t0).chains.getD (core_hash (keys.getD i []) m) []) := by
  intro n
  induction n with
  | zero =>
    intro _
    refine ⟨hlen0, rfl, ?_, ?_⟩
    · intro j _ idx hidx
      simp only [List.range_zero, List.foldl_nil] at hidx
      rw [hempty j] at hidx
      simp at hidx
    · intro i hi; omega
  | succ n ih =>
    intro hn
    obtain ⟨ihlen, ihcap, ihvalid, ihmem⟩ := ih (by omega)
    set T := (List.range n).foldl (fun acc i => insertIdx acc (keys.getD i []) i) t0 with hT
    have hfold : (List.range (n + 1)).foldl (fun acc i => insertIdx acc (keys.getD i []) i) t0
        = insertIdx T (keys.getD n []) n := by
      rw [List.range_succ, List.foldl_append]
      rfl
    have hjn : core_hash (keys.getD n []) T.chains.length = core_hash (keys.getD n []) m := by
      rw [ihlen]
    have hjnlt : core_hash (keys.getD n []) m < m := core_hash_lt _ m hm
    rw [hfold]
    refine ⟨?_, ?_, ?_, ?_⟩
    · rw [insertIdx_chains_length, ihlen]
    · rw [insertIdx_cap]; exact ihcap
    · intro j hj idx hidx
      rw [insertIdx, hjn] at hidx
      by_cases hcase : core_hash (keys.getD n []) m = j
      · rw [← hcase, getD_set_self _ _ _ _ (by omega)] at hidx
        rcases List.mem_cons.mp hidx with rfl | hold
        · exact ⟨by omega, hcase⟩
        · obtain ⟨h1, h2⟩ := ihvalid _ (by omega) idx hold
          exact ⟨by omega, hcase ▸ h2⟩
      · rw [getD_set_ne _ _ _ _ _ hcase] at hidx
        obtain ⟨h1, h2⟩ := ihvalid j hj idx hidx
        exact ⟨by omega, h2⟩
    · intro i hi
      rw [insertIdx, hjn]
      rcases Nat.lt_or_ge i n with hin | hin
      · have hmem := ihmem i hin
        by_cases hcase : core_hash (keys.getD n []) m = core_hash (keys.getD i []) m
        · rw [← hcase, getD_set_self _ _ _ _ (by omega)]
          rw [← hcase] at hmem
          exact List.mem_cons_of_mem _ hmem
        · rw [getD_set_ne _ _ _ _ _ hcase]
          exact hmem
      · have : i = n := by omega
        subst this
        rw [getD_set_self _ _ _ _ (by omega)]
        exact List.mem_cons_self _ _

theorem rehash_spec (b : Buckets) (keys : List Key) (hk : 0 < keys.length) :
    (core_hashmap_rehash b keys).chains.length = 4 * keys.length ∧
    (core_hashmap_rehash b keys).cap ≠ 0 ∧
    ChainsOK keys (core_hashmap_rehash b keys).chains := by
  have h4 : 1 ≤ keys.length * 4 := by omega
  obtain ⟨hchains, hcap⟩ := appendNulls_from_zero ⟨[], 0⟩ rfl (keys.length * 4) h4
  have hlen0 : (appendNulls ⟨[], 0⟩ (keys.length * 4)).chains.length = 4 * keys.length := by
    rw [hchains, List.length_replicate]; omega
  have hempty : ∀ j, (appendNulls ⟨[], 0⟩ (keys.length * 4)).chains.getD j [] = [] := by
    intro j; rw [hchains]; exact getD_replicate_nil _ j
  obtain ⟨hlen, hcap', hvalid, hmem⟩ :=
    insert_fold_inv keys (appendNulls ⟨[], 0⟩ (keys.length * 4)) (4 * keys.length)
      (by omega) hlen0 hempty keys.length (le_refl _)
  rw [core_hashmap_rehash]
  refine ⟨hlen, by rw [hcap']; exact hcap, ?_, ?_⟩
  · intro j hj idx hidx
    rw [hlen] at hj
    obtain ⟨h1, h2⟩ := hvalid j hj idx hidx
    refine ⟨h1, ?_⟩
    rw [hlen]
    exact h2
  · intro i hi
    rw [hlen]
    exact hmem i hi

/-! ### Hashmap: inserting a new key preserves the chain invariant -/

theorem insert_new_chainsOK (b1 : Buckets) (keys : List Key) (key : Key)
    (hok : ChainsOK keys b1.chains) (hlen : 0 < b1.chains.length) :
    ChainsOK (keys ++ [key]) (insertIdx b1 key keys.length).chains ∧
    (insertIdx b1 key keys.length).chains.length = b1.chains.length := by
  have hjk : core_hash key b1.chains.length < b1.chains.length :=
    core_hash_lt key _ hlen
  have hgetd_lt : ∀ idx, idx < keys.length → (keys ++ [key]).getD idx [] = keys.getD idx [] :=
    fun idx hidx => List.getD_append keys [key] [] idx hidx
  have hgetd_eq : (keys ++ [key]).getD keys.length [] = key := by
    rw [List.getD_append_right keys [key] [] keys.length (le_refl _), Nat.sub_self]
    rfl
  have hlen' : (insertIdx b1 key keys.length).chains.length = b1.chains.length :=
    insertIdx_chains_length _ _ _
  refine ⟨⟨?_, ?_⟩, hlen'⟩
  · intro j hj idx hidx
    rw [hlen'] at hj ⊢
    rw [insertIdx] at hidx
    simp only at hidx
    by_cases hcase : core_hash key b1.chains.length = j
    · rw [← hcase, getD_set_self _ _ _ _ hjk] at hidx
      rcases List.mem_cons.mp hidx with rfl | hold
      · refine ⟨by simp, ?_⟩
        rw [hgetd_eq, hcase]
      · obtain ⟨h1, h2⟩ := hok.1 _ hjk idx hold
        refine ⟨by simp; omega, ?_⟩
        rw [hgetd_lt idx h1]
        exact h2.trans hcase
    · rw [getD_set_ne _ _ _ _ _ hcase] at hidx
      obtain ⟨h1, h2⟩ := hok.1 j hj idx hidx
      refine ⟨by simp; omega, ?_⟩
      rw [hgetd_lt idx h1, h2]
  · intro i hi
    rw [hlen']
    rw [insertIdx]
    simp only
    simp only [List.length_append, List.length_singleton] at hi
    rcases Nat.lt_or_ge i keys.length with hin | hin
    · rw [hgetd_lt i hin]
      have hmem := hok.2 i hin
      by_cases hcase : core_hash key b1.chains.length =
          core_hash (keys.getD i []) b1.chains.length
      · rw [← hcase, getD_set_self _ _ _ _ hjk]
        rw [← hcase] at hmem
        exact List.mem_cons_of_mem _ hmem
      · rw [getD_set_ne _ _ _ _ _ hcase]
        exact hmem
    · have : i = keys.length := by omega
      subst this
      rw [hgetd_eq, getD_set_self _ _ _ _ hjk]
      exact List.mem_cons_self _ _

theorem record_new_key_spec {V : Type} (h : HM V) (key : Key) (hinv : HMInv h) :
    ChainsOK (h.keys ++ [key])
      (core_hashmap_record_new_key h.buckets h.keys key h.keys.length).chains ∧
    (core_hashmap_record_new_key h.buckets h.keys key h.keys.length).cap ≠ 0 ∧
    0 < (core_hashmap_record_new_key h.buckets h.keys key h.keys.length).chains.length := by
  obtain ⟨hvk, hnd, hcap0, hcapne, hok⟩ := hinv
  have main : ∀ b1 : Buckets, ChainsOK h.keys b1.chains → 0 < b1.chains.length →
      b1.cap ≠ 0 →
      ChainsOK (h.keys ++ [key]) (insertIdx b1 key h.keys.length).chains ∧
      (insertIdx b1 key h.keys.length).cap ≠ 0 ∧
      0 < (insertIdx b1 key h.keys.length).chains.length := by
    intro b1 hb1ok hb1len hb1cap
    obtain ⟨hok', hlen'⟩ := insert_new_chainsOK b1 h.keys key hb1ok hb1len
    exact ⟨hok', by rw [insertIdx_cap]; exact hb1cap, by rw [hlen']; exact hb1len⟩
  by_cases hc : h.buckets.cap = 0
  · obtain ⟨hchains, hkeys⟩ := hcap0 hc
    obtain ⟨h16, hcne⟩ := appendNulls_from_zero h.buckets hc 16 (by omega)
    have h1 : core_hashmap_record_new_key h.buckets h.keys key h.keys.length =
        insertIdx (appendNulls h.buckets 16) key h.keys.length := by
      simp [core_hashmap_record_new_key, hc]
    rw [h1]
    refine main _ ⟨?_, ?_⟩ ?_ hcne
    · intro j hj idx hidx
      rw [h16, getD_replicate_nil] at hidx
      simp at hidx
    · intro i hi
      rw [hkeys] at hi
      simp at hi
    · rw [h16]
      simp
  · by_cases hnr : core_hashmap_needs_resize h.keys.length h.buckets.chains.length = true
    · have hblen := hcapne hc
      have hkpos : 0 < h.keys.length := by
        have h3 : h.buckets.chains.length * 3 ≤ h.keys.length := by
          simpa [core_hashmap_needs_resize] using hnr
        omega
      obtain ⟨hrl, hrc, hrok⟩ := rehash_spec h.buckets h.keys hkpos
      have h1 : core_hashmap_record_new_key h.buckets h.keys key h.keys.length =
          insertIdx (core_hashmap_rehash h.buckets h.keys) key h.keys.length := by
        simp [core_hashmap_record_new_key, hc, hnr]
      rw [h1]
      refine main _ hrok ?_ hrc
      rw [hrl]
      omega
    · have h1 : core_hashmap_record_new_key h.buckets h.keys key h.keys.length =
          insertIdx h.buckets key h.keys.length := by
        simp [core_hashmap_record_new_key, hc, hnr]
      rw [h1]
      exact main _ hok (hcapne hc) hc

/-! ### Hashmap: the invariant is preserved by `core_hashmap_set` -/

theorem get_index_none_not_mem {V : Type} (h : HM V) (key : Key) (hinv : HMInv h)
    (hnone : core_hashmap_get_index h.buckets h.keys key = none) :
    key ∉ h.keys := by
  obtain ⟨hvk, hnd, hcap0, hcapne, hok⟩ := hinv
  intro hmem
  by_cases hc : h.buckets.chains.length = 0
  · by_cases hcap : h.buckets.cap = 0
    · obtain ⟨_, hkeys⟩ := hcap0 hcap
      rw [hkeys] at hmem
      simp at hmem
    · have := hcapne hcap
      omega
  · obtain ⟨i, hi⟩ :=
      get_index_some_of_mem h.buckets h.keys key hok (Nat.pos_of_ne_zero hc) hmem
    rw [hnone] at hi
    cases hi

theorem hminv_set {V : Type} (h : HM V) (key : Key) (v : V) (hinv : HMInv h) :
    HMInv (core_hashmap_set h key v) := by
  obtain ⟨hvk, hnd, hcap0, hcapne, hok⟩ := hinv
  rcases hg : core_hashmap_get_index h.buckets h.keys key with _ | i
  · have hkeynotmem : key ∉ h.keys :=
      get_index_none_not_mem h key ⟨hvk, hnd, hcap0, hcapne, hok⟩ hg
    obtain ⟨hok', hcap', hlen'⟩ := record_new_key_spec h key ⟨hvk, hnd, hcap0, hcapne, hok⟩
    simp only [core_hashmap_set, hg]
    refine ⟨?_, ?_, ?_, ?_, hok'⟩
    · simp [hvk]
    · rw [List.nodup_append]
      exact ⟨hnd, List.nodup_singleton key,
        by simpa [List.disjoint_singleton] using hkeynotmem⟩
    · intro hc
      exact absurd hc hcap'
    · intro _
      exact hlen'
  · simp only [core_hashmap_set, hg]
    refine ⟨?_, hnd, hcap0, hcapne, hok⟩
    simp [hvk]

theorem reachable_hminv {V : Type} {h : HM V} (hr : Reachable h) : HMInv h := by
  induction hr with
  | empty =>
    refine ⟨rfl, List.nodup_nil, fun _ => ⟨rfl, rfl⟩, fun hc => absurd rfl hc, ?_, ?_⟩
    · intro j hj idx hidx
      simp [emptyHM] at hj
    · intro i hi
      simp [emptyHM] at hi
  | set h key v _ ih => exact hminv_set h key v ih

/-! ### Hashmap: `core_hashmap_get` under the invariant -/

theorem get_at_index {V : Type} (h : HM V) (i : Nat) (hinv : HMInv h)
    (hi : i < h.keys.length) :
    core_hashmap_get h (h.keys.getD i []) = h.values.get? i := by
  obtain ⟨hvk, hnd, hcap0, hcapne, hok⟩ := hinv
  have hlen : 0 < h.buckets.chains.length := by
    by_cases hcap : h.buckets.cap = 0
    · obtain ⟨_, hkeys⟩ := hcap0 hcap
      rw [hkeys] at hi
      simp at hi
    · exact hcapne hcap
  simp only [core_hashmap_get, get_index_at h.buckets h.keys i hok hnd hlen hi]

theorem get_not_mem {V : Type} (h : HM V) (key : Key) (hinv : HMInv h)
    (hkey : key ∉ h.keys) :
    core_hashmap_get h key = none := by
  simp only [core_hashmap_get, get_index_not_mem h.buckets h.keys key hinv.2.2.2.2 hkey]

theorem get_set_same {V : Type} (h : HM V) (key : Key) (v : V) (hinv : HMInv h) :
    core_hashmap_get (core_hashmap_set h key v) key = some v := by
  have hinv' := hminv_set h key v hinv
  obtain ⟨hvk, hnd, hcap0, hcapne, hok⟩ := hinv
  rcases hg : core_hashmap_get_index h.buckets h.keys key with _ | i
  · have hkeys' : (core_hashmap_set h key v).keys = h.keys ++ [key] := by
      simp only [core_hashmap_set, hg]
    have hvals' : (core_hashmap_set h key v).values = h.values ++ [v] := by
      simp only [core_hashmap_set, hg]
    have hi : h.keys.length < (core_hashmap_set h key v).keys.length := by
      rw [hkeys']
      simp
    have hgd : (core_hashmap_set h key v).keys.getD h.keys.length [] = key := by
      rw [hkeys', List.getD_append_right _ _ _ _ (le_refl _), Nat.sub_self]
      rfl
    have hga := get_at_index (core_hashmap_set h key v) h.keys.length hinv' hi
    rw [hgd] at hga
    rw [hga, hvals', ← hvk, List.get?_eq_getElem?]
    rw [List.getElem?_append_right (le_refl _), Nat.sub_self]
    rfl
  · have hvalid := get_index_valid h.buckets h.keys key i hok hg
    have hilt : i < h.values.length := by omega
    simp only [core_hashmap_set, hg, core_hashmap_get]
    rw [List.get?_eq_getElem?, List.getElem?_set_self hilt]

/-! ### Hashmap: inserting pairwise distinct keys -/

theorem setAll_spec {V : Type} : ∀ (ps : List (Key × V)) (h : HM V),
    HMInv h → (∀ p ∈ ps, p.1 ∉ h.keys) → (ps.map Prod.fst).Nodup →
    (core_hashmap_setAll h ps).keys = h.keys ++ ps.map Prod.fst ∧
    (core_hashmap_setAll h ps).values = h.values ++ ps.map Prod.snd ∧
    HMInv (core_hashmap_setAll h ps) := by
  intro ps
  induction ps with
  | nil =>
    intro h hinv _ _
    exact ⟨by simp [core_hashmap_setAll], by simp [core_hashmap_setAll], hinv⟩
  | cons p ps ih =>
    intro h hinv hnotin hnd
    have hp : p.1 ∉ h.keys := hnotin p (List.mem_cons_self _ _)
    have hg : core_hashmap_get_index h.buckets h.keys p.1 = none :=
      get_index_not_mem h.buckets h.keys p.1 hinv.2.2.2.2 hp
    have hkeys1 : (core_hashmap_set h p.1 p.2).keys = h.keys ++ [p.1] := by
      simp only [core_hashmap_set, hg]
    have hvals1 : (core_hashmap_set h p.1 p.2).values = h.values ++ [p.2] := by
      simp only [core_hashmap_set, hg]
    have hinv1 := hminv_set h p.1 p.2 hinv
    have hndc : p.1 ∉ ps.map Prod.fst ∧ (ps.map Prod.fst).Nodup :=
      List.nodup_cons.mp (by simpa using hnd)
    have hnotin' : ∀ q ∈ ps, q.1 ∉ (core_hashmap_set h p.1 p.2).keys := by
      intro q hq hqmem
      rw [hkeys1] at hqmem
      rcases List.mem_append.mp hqmem with hL | hR
      · exact hnotin q (List.mem_cons_of_mem _ hq) hL
      · simp only [List.mem_singleton] at hR
        have hmap : q.1 ∈ ps.map Prod.fst := List.mem_map_of_mem _ hq
        rw [hR] at hmap
        exact hndc.1 hmap
    obtain ⟨hk, hv, hi⟩ := ih (core_hashmap_set h p.1 p.2) hinv1 hnotin' hndc.2
    have hsetall : core_hashmap_setAll h (p :: ps) =
        core_hashmap_setAll (core_hashmap_set h p.1 p.2) ps := rfl
    rw [hsetall]
    refine ⟨?_, ?_, hi⟩
    · rw [hk, hkeys1]
      simp
    · rw [hv, hvals1]
      simp

/-- C3: inserting any sequence of pairwise distinct keys into an
initially empty map (any number of rehashes included — the sequence is
arbitrary), `core_hashmap_get` afterwards returns the value set for every
inserted key and reports not-found for every key not in the sequence. -/
theorem C3_hashmap_distinct_inserts {V : Type} (ps : List (Key × V))
    (hnd : (ps.map Prod.fst).Nodup) :
    (∀ p ∈ ps, core_hashmap_get (core_hashmap_setAll (emptyHM V) ps) p.1 = some p.2) ∧
    (∀ key, key ∉ ps.map Prod.fst →
      core_hashmap_get (core_hashmap_setAll (emptyHM V) ps) key = none) := by
  have hinv0 : HMInv (emptyHM V) := reachable_hminv Reachable.empty
  obtain ⟨hk, hv, hi⟩ :=
    setAll_spec ps (emptyHM V) hinv0 (fun p _ => by simp [emptyHM]) hnd
  have hkeq : (core_hashmap_setAll (emptyHM V) ps).keys = ps.map Prod.fst := by
    rw [hk]; rfl
  have hveq : (core_hashmap_setAll (emptyHM V) ps).values = ps.map Prod.snd := by
    rw [hv]; rfl
  constructor
  · intro p hp
    obtain ⟨n, hn, hget⟩ := List.mem_iff_getElem.mp hp
    have hnlt : n < (core_hashmap_setAll (emptyHM V) ps).keys.length := by
      rw [hkeq, List.length_map]
      exact hn
    have hkn : (core_hashmap_setAll (emptyHM V) ps).keys.getD n [] = p.1 := by
      rw [hkeq, List.getD_eq_getElem _ _ (by rw [List.length_map]; exact hn)]
      simp only [List.getElem_map]
      exact congrArg Prod.fst hget
    have hga := get_at_index (core_hashmap_setAll (emptyHM V) ps) n hi hnlt
    rw [hkn] at hga
    rw [hga, hveq, List.get?_eq_getElem?,
      List.getElem?_eq_getElem (by rw [List.length_map]; exact hn), List.getElem_map, hget]
  · intro key hkey
    refine get_not_mem _ key hi ?_
    rw [hkeq]
    exact hkey

/-- C3 witness: two distinct keys inserted into the empty map; the first
key is retrievable with its value and an absent key reports not-found. -/
theorem C3_witness :
    core_hashmap_get (core_hashmap_setAll (emptyHM Nat) [([1], 10), ([2], 20)]) [1] =
      some 10 ∧
    core_hashmap_get (core_hashmap_setAll (emptyHM Nat) [([1], 10), ([2], 20)]) [9] =
      none := by
  have h := C3_hashmap_distinct_inserts [([1], 10), ([2], 20)] (by decide)
  exact ⟨h.1 ([1], 10) (by decide), h.2 [9] (by decide)⟩

/-- C5: setting the same key twice overwrites in place — the second
`core_hashmap_set` leaves both `keys.len` and `values.len` unchanged and
`core_hashmap_get` afterwards returns the second value. -/
theorem C5_hashmap_overwrite {V : Type} (h : HM V) (key : Key) (v1 v2 : V)
    (hinv : HMInv h) :
    core_hashmap_get (core_hashmap_set (core_hashmap_set h key v1) key v2) key = some v2 ∧
    (core_hashmap_set (core_hashmap_set h key v1) key v2).keys.length =
      (core_hashmap_set h key v1).keys.length ∧
    (core_hashmap_set (core_hashmap_set h key v1) key v2).values.length =
      (core_hashmap_set h key v1).values.length := by
  have hinv1 := hminv_set h key v1 hinv
  have hget1 := get_set_same h key v1 hinv
  set h1 := core_hashmap_set h key v1 with hh1
  refine ⟨get_set_same h1 key v2 hinv1, ?_⟩
  rcases hg : core_hashmap_get_index h1.buckets h1.keys key with _ | j
  · exfalso
    have hnone : core_hashmap_get h1 key = none := by
      simp only [core_hashmap_get, hg]
    rw [hnone] at hget1
    cases hget1
  · constructor
    · simp only [core_hashmap_set, hg]
    · simp only [core_hashmap_set, hg, List.length_set]

/-- C5 witness: setting key `[1]` to 5 then to 7 in the empty map yields
7 on lookup and a single key/value slot. -/
theorem C5_witness :
    core_hashmap_get (core_hashmap_set (core_hashmap_set (emptyHM Nat) [1] 5) [1] 7) [1] =
      some 7 ∧
    (core_hashmap_set (core_hashmap_set (emptyHM Nat) [1] 5) [1] 7).keys.length =
      (core_hashmap_set (emptyHM Nat) [1] 5).keys.length ∧
    (core_hashmap_set (core_hashmap_set (emptyHM Nat) [1] 5) [1] 7).values.length =
      (core_hashmap_set (emptyHM Nat) [1] 5).values.length :=
  C5_hashmap_overwrite (emptyHM Nat) [1] 5 7 (reachable_hminv Reachable.empty)

/-- C8: every map reachable from the empty map through the public
operations keeps `values.len = keys.len`, associates `keys[i]` with
`values[i]` (looking up `keys[i]` yields exactly `values[i]`), and stores
every key index in exactly one bucket chain — the one at
`hash(key, buckets.len)`. -/
theorem C8_hashmap_reachable_invariants {V : Type} (h : HM V) (hr : Reachable h) :
    h.values.length = h.keys.length ∧
    (∀ i, i < h.keys.length →
      core_hashmap_get h (h.keys.getD i []) = h.values.get? i) ∧
    (∀ i, i < h.keys.length →
      i ∈ h.buckets.chains.getD
          (core_hash (h.keys.getD i []) h.buckets.chains.length) [] ∧
      ∀ j, j < h.buckets.chains.length →
        i ∈ h.buckets.chains.getD j [] →
        j = core_hash (h.keys.getD i []) h.buckets.chains.length) := by
  have hinv := reachable_hminv hr
  obtain ⟨hvk, hnd, hcap0, hcapne, hok⟩ := hinv
  refine ⟨hvk, ?_, ?_⟩
  · intro i hi
    exact get_at_index h i ⟨hvk, hnd, hcap0, hcapne, hok⟩ hi
  · intro i hi
    refine ⟨hok.2 i hi, ?_⟩
    intro j hj hmem
    exact ((hok.1 j hj i hmem).2).symm

/-- C8 witness: the one-entry map reached by a single set satisfies the
length equality and the key/value association at index 0. -/
theorem C8_witness :
    (core_hashmap_set (emptyHM Nat) [1] 5).values.length =
      (core_hashmap_set (emptyHM Nat) [1] 5).keys.length ∧
    core_hashmap_get (core_hashmap_set (emptyHM Nat) [1] 5)
        ((core_hashmap_set (emptyHM Nat) [1] 5).keys.getD 0 []) =
      (core_hashmap_set (emptyHM Nat) [1] 5).values.get? 0 := by
  have h := C8_hashmap_reachable_invariants (core_hashmap_set (emptyHM Nat) [1] 5)
    (Reachable.set _ _ _ Reachable.empty)
  exact ⟨h.1, h.2.1 0 (by decide)⟩

/-- C4: the bucket table of an invariant-satisfying map is materialized
at exactly 16 buckets by a set on a never-allocated table (`cap = 0`);
and a set that inserts a new key when `keys.len ≥ 3 × buckets.len`
replaces the table by one of exactly `4 × keys.len` buckets in which
every existing key index is re-inserted at the bucket its key hashes
to. -/
theorem C4_hashmap_bucket_lifecycle {V : Type} (h : HM V) (key : Key) (v : V)
    (hinv : HMInv h) :
    (h.buckets.cap = 0 → (core_hashmap_set h key v).buckets.chains.length = 16) ∧
    (h.buckets.cap ≠ 0 →
      core_hashmap_get_index h.buckets h.keys key = none →
      core_hashmap_needs_resize h.keys.length h.buckets.chains.length = true →
      (core_hashmap_set h key v).buckets.chains.length = 4 * h.keys.length ∧
      ∀ i, i < h.keys.length →
        i ∈ (core_hashmap_set h key v).buckets.chains.getD
            (core_hash (h.keys.getD i []) (4 * h.keys.length)) []) := by
  obtain ⟨hvk, hnd, hcap0, hcapne, hok⟩ := hinv
  constructor
  · intro hc
    obtain ⟨hchains, hkeys⟩ := hcap0 hc
    have hg : core_hashmap_get_index h.buckets h.keys key = none := by
      rw [core_hashmap_get_index, if_pos (by rw [hchains]; rfl)]
    have hbuck : (core_hashmap_set h key v).buckets =
        core_hashmap_record_new_key h.buckets h.keys key h.keys.length := by
      simp only [core_hashmap_set, hg]
    have h1 : core_hashmap_record_new_key h.buckets h.keys key h.keys.length =
        insertIdx (appendNulls h.buckets 16) key h.keys.length := by
      simp [core_hashmap_record_new_key, hc]
    obtain ⟨h16, _⟩ := appendNulls_from_zero h.buckets hc 16 (by omega)
    rw [hbuck, h1, insertIdx_chains_length, h16, List.length_replicate]
  · intro hc hg hnr
    have hbuck : (core_hashmap_set h key v).buckets =
        core_hashmap_record_new_key h.buckets h.keys key h.keys.length := by
      simp only [core_hashmap_set, hg]
    have hkpos : 0 < h.keys.length := by
      have h3 : h.buckets.chains.length * 3 ≤ h.keys.length := by
        simpa [core_hashmap_needs_resize] using hnr
      have := hcapne hc
      omega
    obtain ⟨hrl, hrc, hrok⟩ := rehash_spec h.buckets h.keys hkpos
    have h1 : core_hashmap_record_new_key h.buckets h.keys key h.keys.length =
        insertIdx (core_hashmap_rehash h.buckets h.keys) key h.keys.length := by
      simp [core_hashmap_record_new_key, hc, hnr]
    constructor
    · rw [hbuck, h1, insertIdx_chains_length, hrl]
    · intro i hi
      have hmem : i ∈ (core_hashmap_rehash h.buckets h.keys).chains.getD
          (core_hash (h.keys.getD i []) (4 * h.keys.length)) [] := by
        have hm := hrok.2 i hi
        rw [hrl] at hm
        exact hm
      have hjklt : core_hash key (core_hashmap_rehash h.buckets h.keys).chains.length <
          (core_hashmap_rehash h.buckets h.keys).chains.length := by
        refine core_hash_lt key _ ?_
        rw [hrl]
        omega
      rw [hbuck, h1, insertIdx]
      simp only
      by_cases hcase : core_hash key (core_hashmap_rehash h.buckets h.keys).chains.length =
          core_hash (h.keys.getD i []) (4 * h.keys.length)
      · rw [← hcase, getD_set_self _ _ _ _ hjklt]
        rw [← hcase] at hmem
        exact List.mem_cons_of_mem _ hmem
      · rw [getD_set_ne _ _ _ _ _ hcase]
        exact hmem

/-- C4 witness: the first set on the empty map materializes exactly 16
buckets; and on a well-formed one-bucket map holding 3 keys, inserting a
fourth key rehashes to exactly `4 × 3 = 12` buckets. -/
theorem C4_witness :
    (core_hashmap_set (emptyHM Nat) [1] 5).buckets.chains.length = 16 ∧
    (core_hashmap_set (⟨[10, 20, 30], [[1], [2], [3]], ⟨[[2, 1, 0]], 17⟩⟩ : HM Nat)
        [4] 40).buckets.chains.length = 12 := by
  constructor
  · exact (C4_hashmap_bucket_lifecycle (emptyHM Nat) [1] 5
      (reachable_hminv Reachable.empty)).1 rfl
  · exact ((C4_hashmap_bucket_lifecycle
      (⟨[10, 20, 30], [[1], [2], [3]], ⟨[[2, 1, 0]], 17⟩⟩ : HM Nat) [4] 40
      (by decide)).2 (by decide) (by decide) (by decide)).1

/-! ### Hashmap: the checked operations never hit the hash assertion -/

theorem get_index_chk_eq (b : Buckets) (keys : List Key) (key : Key) :
    core_hashmap_get_index_chk b keys key = some (core_hashmap_get_index b keys key) := by
  by_cases hc : b.chains.length = 0
  · simp [core_hashmap_get_index_chk, core_hashmap_get_index, hc]
  · simp [core_hashmap_get_index_chk, core_hashmap_get_index, core_hash_chk, hc]

theorem insertIdx_chk_eq (b : Buckets) (key : Key) (idx : Nat)
    (h : 0 < b.chains.length) :
    insertIdx_chk b key idx = some (insertIdx b key idx) := by
  rw [insertIdx_chk, core_hash_chk, if_neg (by omega)]
  rfl

theorem fold_insert_length (keys : List Key) (t0 : Buckets) :
    ∀ n, ((List.range n).foldl (fun acc i => insertIdx acc (keys.getD i []) i)
        t0).chains.length = t0.chains.length := by
  intro n
  induction n with
  | zero => rfl
  | succ n ih =>
    rw [List.range_succ, List.foldl_append]
    simp only [List.foldl_cons, List.foldl_nil]
    rw [insertIdx_chains_length]
    exact ih

theorem fold_chk_eq (keys : List Key) (t0 : Buckets) (h0 : 0 < t0.chains.length) :
    ∀ n, (List.range n).foldl
        (fun acc i => acc.bind (fun t => insertIdx_chk t (keys.getD i []) i)) (some t0) =
      some ((List.range n).foldl (fun acc i => insertIdx acc (keys.getD i []) i) t0) := by
  intro n
  induction n with
  | zero => rfl
  | succ n ih =>
    rw [List.range_succ, List.foldl_append, List.foldl_append, ih]
    simp only [List.foldl_cons, List.foldl_nil, Option.some_bind]
    refine insertIdx_chk_eq _ _ _ ?_
    rw [fold_insert_length]
    exact h0

theorem rehash_chk_eq (b : Buckets) (keys : List Key) :
    core_hashmap_rehash_chk b keys = some (core_hashmap_rehash b keys) := by
  rcases Nat.eq_zero_or_pos keys.length with hk | hk
  · rw [core_hashmap_rehash_chk, core_hashmap_rehash, hk]
    rfl
  · obtain ⟨hchains, _⟩ := appendNulls_from_zero ⟨[], 0⟩ rfl (keys.length * 4) (by omega)
    rw [core_hashmap_rehash_chk, core_hashmap_rehash]
    refine fold_chk_eq keys _ ?_ keys.length
    rw [hchains, List.length_replicate]
    omega

theorem record_new_key_chk_eq (b : Buckets) (keys : List Key) (key : Key)
    (hb : b.cap = 0 ∨ 0 < b.chains.length) :
    core_hashmap_record_new_key_chk b keys key keys.length =
      some (core_hashmap_record_new_key b keys key keys.length) := by
  by_cases hc : b.cap = 0
  · obtain ⟨h16, _⟩ := appendNulls_from_zero b hc 16 (by omega)
    have hlen16 : 0 < (appendNulls b 16).chains.length := by
      rw [h16]
      simp
    simp only [core_hashmap_record_new_key_chk, core_hashmap_record_new_key, if_pos hc,
      Option.some_bind]
    exact insertIdx_chk_eq _ key keys.length hlen16
  · have hblen : 0 < b.chains.length := hb.resolve_left hc
    by_cases hnr : core_hashmap_needs_resize keys.length b.chains.length = true
    · have hkpos : 0 < keys.length := by
        have h3 : b.chains.length * 3 ≤ keys.length := by
          simpa [core_hashmap_needs_resize] using hnr
        omega
      obtain ⟨hrl, _, _⟩ := rehash_spec b keys hkpos
      simp only [core_hashmap_record_new_key_chk, core_hashmap_record_new_key, if_neg hc,
        if_pos hnr, rehash_chk_eq, Option.some_bind]
      refine insertIdx_chk_eq _ key keys.length ?_
      rw [hrl]
      omega
    · simp only [core_hashmap_record_new_key_chk, core_hashmap_record_new_key, if_neg hc,
        if_neg hnr, Option.some_bind]
      exact insertIdx_chk_eq _ key keys.length hblen

theorem set_chk_eq {V : Type} (h : HM V) (key : Key) (v : V)
    (hb : h.buckets.cap = 0 ∨ 0 < h.buckets.chains.length) :
    core_hashmap_set_chk h key v = some (core_hashmap_set h key v) := by
  rcases hg : core_hashmap_get_index h.buckets h.keys key with _ | i
  · simp only [core_hashmap_set_chk, core_hashmap_set, get_index_chk_eq, hg,
      record_new_key_chk_eq h.buckets h.keys key hb, Option.map_some']
  · simp only [core_hashmap_set_chk, core_hashmap_set, get_index_chk_eq, hg]

/-- C10: the `assert(modulus > 0)` of `core_hash` is unreachable through
the public map operations: on any reachable map, the assert-aware
(`_chk`) versions of `core_hashmap_get_index` (the lookup path of
`core_hashmap_get`, which returns not-found before hashing whenever the
bucket table is empty) and of `core_hashmap_set` (whose
`core_hashmap_record_new_key` materializes a nonempty bucket table before
hashing) succeed and agree with the unchecked versions. -/
theorem C10_hash_assert_unreachable {V : Type} (h : HM V) (key : Key) (v : V)
    (hr : Reachable h) :
    core_hashmap_get_index_chk h.buckets h.keys key =
      some (core_hashmap_get_index h.buckets h.keys key) ∧
    core_hashmap_set_chk h key v = some (core_hashmap_set h key v) := by
  obtain ⟨hvk, hnd, hcap0, hcapne, hok⟩ := reachable_hminv hr
  refine ⟨get_index_chk_eq _ _ _, set_chk_eq h key v ?_⟩
  by_cases hc : h.buckets.cap = 0
  · exact Or.inl hc
  · exact Or.inr (hcapne hc)

/-- C10 witness: on the empty map the checked set (and therefore every
hash call inside it) succeeds. -/
theorem C10_witness :
    core_hashmap_set_chk (emptyHM Nat) [1] 5 =
      some (core_hashmap_set (emptyHM Nat) [1] 5) :=
  (C10_hash_assert_unreachable (emptyHM Nat) [1] 5 Reachable.empty).2

end Core
